import Mathlib

/-! Verification of the text layout and raster compositing engine of the
TikTok_auto repository (src/text_overlay.py, src/text_overlay_pov.py).

Python strings are modelled as lists of characters (`PyStr`); Python's
whitespace test is modelled by `Char.isWhitespace` (space, tab, CR, LF).
Font metrics are abstract: a `FontMetric` gives, for each pixel size, the
bounding box `textbbox((0,0), text)` of a rendered text block.  Pixel
arithmetic written with Python floats (`width / 15`, `height * 0.35`,
`i / 100`) is modelled by exact rational arithmetic with the floor taken
by `int(...)`, as in the source expressions.
-/

/-- Model of a Python `str`: a list of characters. -/
abbrev PyStr := List Char

/-- Dropping a prefix never lengthens a list. -/
theorem dropWhile_length_le {α : Type} (p : α → Bool) :
    ∀ l : List α, (List.dropWhile p l).length ≤ l.length
  | [] => le_refl _
  | a :: l => by
    rw [List.dropWhile]
    cases p a
    · simp
    · simpa using Nat.le_succ_of_le (dropWhile_length_le p l)

/-- Model of Python `str.split()` with no argument: split on runs of
whitespace, dropping empty pieces.  Tokens are the maximal whitespace-free
non-empty runs. -/
def splitWs : List Char → List (List Char)
  | [] => []
  | c :: cs =>
    if c.isWhitespace then splitWs cs
    else
      (c :: cs).takeWhile (fun d => !d.isWhitespace)
        :: splitWs ((c :: cs).dropWhile (fun d => !d.isWhitespace))
termination_by l => l.length
decreasing_by
  all_goals simp only [List.length_cons]
  · omega
  · rw [List.dropWhile]
    have h1 : (!c.isWhitespace) = true := by simp_all
    simp only [h1]
    have := dropWhile_length_le (fun d => !d.isWhitespace) cs
    omega

/-- Model of Python `sep.join(parts)` for a one-character separator. -/
def joinSep (sep : Char) : List PyStr → PyStr
  | [] => []
  | [p] => p
  | p :: ps => p ++ sep :: joinSep sep ps

/-- One step of the greedy measured-width wrap loop of
`TextOverlay.wrap_text` (src/text_overlay.py lines 115-128): try the
current line with the word appended; on fit keep accumulating, otherwise
close the current line (if non-empty) and start a new line with the word.
The accumulator keeps each line as its list of words; the Python code
stores the space-joined string, recovered by mapping `joinSep ' '`. -/
def wrapStep (measure : PyStr → ℤ) (maxWidth : ℤ)
    (acc : List (List PyStr) × List PyStr) (word : PyStr) :
    List (List PyStr) × List PyStr :=
  if measure (joinSep ' ' (acc.2 ++ [word])) ≤ maxWidth then
    (acc.1, acc.2 ++ [word])
  else
    (acc.1 ++ (if acc.2 = [] then [] else [acc.2]), [word])

/-- The word groups produced by `TextOverlay.wrap_text`
(src/text_overlay.py lines 109-134): fold the greedy step over the
whitespace-split words, then append the pending last line if non-empty. -/
def wrapGroups (measure : PyStr → ℤ) (maxWidth : ℤ) (words : List PyStr) :
    List (List PyStr) :=
  let r := words.foldl (wrapStep measure maxWidth) ([], [])
  r.1 ++ (if r.2 = [] then [] else [r.2])

/-- The lines produced by `TextOverlay.wrap_text`: each word group joined
with single spaces, as `' '.join(current_line)` does. -/
def wrapLines (measure : PyStr → ℤ) (maxWidth : ℤ) (text : PyStr) :
    List PyStr :=
  (wrapGroups measure maxWidth (splitWs text)).map (joinSep ' ')

/-- Model of `TextOverlay.wrap_text`: the wrapped lines joined with
newlines (`'\n'.join(wrapped_lines)`). -/
def wrapText (measure : PyStr → ℤ) (maxWidth : ℤ) (text : PyStr) : PyStr :=
  joinSep '\n' (wrapLines measure maxWidth text)

/-- Unfolding `splitWs` at a whitespace head character. -/
theorem splitWs_cons_ws {c : Char} (cs : List Char) (h : c.isWhitespace) :
    splitWs (c :: cs) = splitWs cs := by
  rw [splitWs]
  simp [h]

/-- Unfolding `splitWs` at a non-whitespace head character. -/
theorem splitWs_cons_tok {c : Char} (cs : List Char) (h : ¬c.isWhitespace) :
    splitWs (c :: cs) =
      (c :: cs).takeWhile (fun d => !d.isWhitespace)
        :: splitWs ((c :: cs).dropWhile (fun d => !d.isWhitespace)) := by
  rw [splitWs]
  simp [h]

/-- Taking while a predicate holds stops no later than a separator on which
the predicate fails. -/
theorem takeWhile_append_sep {α : Type} (p : α → Bool) (sep : α)
    (hsep : p sep = false) :
    ∀ (a b : List α), (a ++ sep :: b).takeWhile p = a.takeWhile p
  | [], b => by simp [List.takeWhile, hsep]
  | x :: a, b => by
    cases hpx : p x
    · simp [List.takeWhile, hpx]
    · simp only [List.cons_append, List.takeWhile, hpx, List.append_eq]
      rw [takeWhile_append_sep p sep hsep a b]

/-- Dropping while a predicate holds passes through a separator on which
the predicate fails. -/
theorem dropWhile_append_sep {α : Type} (p : α → Bool) (sep : α)
    (hsep : p sep = false) :
    ∀ (a b : List α), (a ++ sep :: b).dropWhile p = a.dropWhile p ++ sep :: b
  | [], b => by simp [List.dropWhile, hsep]
  | x :: a, b => by
    cases hpx : p x
    · simp [List.dropWhile, hpx]
    · simp only [List.cons_append, List.dropWhile, hpx, List.append_eq]
      rw [dropWhile_append_sep p sep hsep a b]

/-- Splitting on whitespace distributes over a whitespace separator. -/
theorem splitWs_append_sep {sep : Char} (hs : sep.isWhitespace) :
    ∀ (a b : List Char), splitWs (a ++ sep :: b) = splitWs a ++ splitWs b := by
  have main : ∀ (n : ℕ) (a : List Char), a.length ≤ n → ∀ b,
      splitWs (a ++ sep :: b) = splitWs a ++ splitWs b := by
    intro n
    induction n with
    | zero =>
      intro a ha b
      have h0 : a = [] := List.length_eq_zero.mp (Nat.le_zero.mp ha)
      subst h0
      simp [splitWs_cons_ws b hs, splitWs]
    | succ n ih =>
      intro a ha b
      match a with
      | [] => simp [splitWs_cons_ws b hs, splitWs]
      | c :: cs =>
        by_cases hc : c.isWhitespace
        · rw [List.cons_append, splitWs_cons_ws _ hc, splitWs_cons_ws cs hc]
          exact ih cs (by simpa using Nat.le_of_succ_le_succ ha) b
        · have hp : (fun d => !d.isWhitespace) sep = false := by simp [hs]
          rw [List.cons_append, splitWs_cons_tok _ hc, splitWs_cons_tok cs hc]
          rw [show c :: (cs ++ sep :: b) = (c :: cs) ++ sep :: b from rfl]
          rw [takeWhile_append_sep _ sep hp, dropWhile_append_sep _ sep hp]
          have hdrop : (c :: cs).dropWhile (fun d => !d.isWhitespace)
              = cs.dropWhile (fun d => !d.isWhitespace) := by
            rw [List.dropWhile]
            simp [hc]
          rw [hdrop]
          rw [ih (cs.dropWhile (fun d => !d.isWhitespace))
            (Nat.le_trans (dropWhile_length_le _ cs)
              (by simpa using Nat.le_of_succ_le_succ ha)) b]
          simp
  intro a b
  exact main a.length a (le_refl _) b

/-- Every token produced by `splitWs` is non-empty and whitespace-free. -/
theorem splitWs_token :
    ∀ (l : List Char), ∀ t ∈ splitWs l, t ≠ [] ∧ ∀ c ∈ t, ¬c.isWhitespace := by
  have main : ∀ (n : ℕ) (l : List Char), l.length ≤ n →
      ∀ t ∈ splitWs l, t ≠ [] ∧ ∀ c ∈ t, ¬c.isWhitespace := by
    intro n
    induction n with
    | zero =>
      intro l hl t ht
      have h0 : l = [] := List.length_eq_zero.mp (Nat.le_zero.mp hl)
      subst h0
      simp [splitWs] at ht
    | succ n ih =>
      intro l hl t ht
      match l with
      | [] => simp [splitWs] at ht
      | c :: cs =>
        by_cases hc : c.isWhitespace
        · rw [splitWs_cons_ws cs hc] at ht
          exact ih cs (by simpa using Nat.le_of_succ_le_succ hl) t ht
        · rw [splitWs_cons_tok cs hc] at ht
          rcases List.mem_cons.mp ht with h | h
          · subst h
            constructor
            · simp [List.takeWhile, hc]
            · intro x hx
              have := List.mem_takeWhile_imp hx
              simpa using this
          · have hdrop : (c :: cs).dropWhile (fun d => !d.isWhitespace)
                = cs.dropWhile (fun d => !d.isWhitespace) := by
              rw [List.dropWhile]
              simp [hc]
            rw [hdrop] at h
            exact ih (cs.dropWhile (fun d => !d.isWhitespace))
              (Nat.le_trans (dropWhile_length_le _ cs)
                (by simpa using Nat.le_of_succ_le_succ hl)) t h
  intro l
  exact main l.length l (le_refl _)

/-- A list all of whose elements satisfy the predicate is taken whole. -/
theorem takeWhile_all {α : Type} (p : α → Bool) :
    ∀ l : List α, (∀ x ∈ l, p x = true) → l.takeWhile p = l
  | [], _ => rfl
  | x :: l, h => by
    have hx : p x = true := h x (by simp)
    simp only [List.takeWhile, hx]
    rw [takeWhile_all p l (fun y hy => h y (by simp [hy]))]

/-- A list all of whose elements satisfy the predicate drops to nothing. -/
theorem dropWhile_all {α : Type} (p : α → Bool) :
    ∀ l : List α, (∀ x ∈ l, p x = true) → l.dropWhile p = []
  | [], _ => rfl
  | x :: l, h => by
    have hx : p x = true := h x (by simp)
    simp only [List.dropWhile, hx]
    exact dropWhile_all p l (fun y hy => h y (by simp [hy]))

/-- A non-empty whitespace-free string is a single token. -/
theorem splitWs_single_token (t : List Char) (ht : t ≠ [])
    (hc : ∀ c ∈ t, ¬c.isWhitespace) : splitWs t = [t] := by
  match t with
  | [] => exact absurd rfl ht
  | c :: cs =>
    have hcw : ¬c.isWhitespace := hc c (by simp)
    rw [splitWs_cons_tok cs hcw]
    have hall : ∀ x ∈ c :: cs, (fun d => !d.isWhitespace) x = true := by
      intro x hx
      simp [hc x hx]
    rw [takeWhile_all _ _ hall, dropWhile_all _ _ hall]
    simp [splitWs]

/-- Splitting the join of parts on a whitespace separator splits each part. -/
theorem splitWs_joinSep {sep : Char} (hs : sep.isWhitespace) :
    ∀ parts : List PyStr,
      splitWs (joinSep sep parts) = (parts.map splitWs).flatten
  | [] => by simp [joinSep, splitWs]
  | [p] => by simp [joinSep]
  | p :: q :: ps => by
    rw [show joinSep sep (p :: q :: ps) = p ++ sep :: joinSep sep (q :: ps)
      from rfl]
    rw [splitWs_append_sep hs, splitWs_joinSep hs (q :: ps)]
    simp

/-- The words accumulated so far by the wrap loop: closed lines, then the
pending current line. -/
def lineFlat (acc : List (List PyStr) × List PyStr) : List PyStr :=
  acc.1.flatten ++ acc.2

/-- One wrap step appends exactly the new word to the accumulated words. -/
theorem wrapStep_lineFlat (measure : PyStr → ℤ) (maxWidth : ℤ)
    (acc : List (List PyStr) × List PyStr) (word : PyStr) :
    lineFlat (wrapStep measure maxWidth acc word) = lineFlat acc ++ [word] := by
  unfold wrapStep lineFlat
  by_cases h1 : measure (joinSep ' ' (acc.2 ++ [word])) ≤ maxWidth
  · simp [h1]
  · by_cases h2 : acc.2 = [] <;> simp [h1, h2]

/-- Folding the wrap loop appends exactly the word list. -/
theorem foldl_wrapStep_lineFlat (measure : PyStr → ℤ) (maxWidth : ℤ) :
    ∀ (words : List PyStr) (acc : List (List PyStr) × List PyStr),
      lineFlat (words.foldl (wrapStep measure maxWidth) acc)
        = lineFlat acc ++ words
  | [], acc => by simp
  | w :: ws, acc => by
    rw [List.foldl_cons, foldl_wrapStep_lineFlat measure maxWidth ws,
      wrapStep_lineFlat]
    simp

/-- The wrap of `TextOverlay.wrap_text` loses, duplicates and reorders no
word: flattening the produced word groups returns the input word list. -/
theorem wrapGroups_flatten (measure : PyStr → ℤ) (maxWidth : ℤ)
    (words : List PyStr) :
    (wrapGroups measure maxWidth words).flatten = words := by
  unfold wrapGroups
  have h := foldl_wrapStep_lineFlat measure maxWidth words ([], [])
  unfold lineFlat at h
  by_cases h2 : (words.foldl (wrapStep measure maxWidth) ([], [])).2 = []
  · simp [h2] at h ⊢
    simpa [h2] using h
  · simp [h2, List.flatten_append]
    simpa [h2] using h

/-- Invariant of a closed wrap line: non-empty, and either its joined text
measured within the width budget, or it is a single word. -/
def GoodGroup (measure : PyStr → ℤ) (maxWidth : ℤ) (g : List PyStr) : Prop :=
  g ≠ [] ∧ (measure (joinSep ' ' g) ≤ maxWidth ∨ ∃ wd, g = [wd])

/-- Invariant of the pending current line of the wrap loop. -/
def CurOk (measure : PyStr → ℤ) (maxWidth : ℤ) (cur : List PyStr) : Prop :=
  cur = [] ∨ measure (joinSep ' ' cur) ≤ maxWidth ∨ ∃ wd, cur = [wd]

/-- One wrap step preserves both wrap invariants. -/
theorem wrapStep_inv (measure : PyStr → ℤ) (maxWidth : ℤ)
    (closed : List (List PyStr)) (cur : List PyStr) (word : PyStr)
    (hc : ∀ g ∈ closed, GoodGroup measure maxWidth g)
    (hcur : CurOk measure maxWidth cur) :
    (∀ g ∈ (wrapStep measure maxWidth (closed, cur) word).1,
        GoodGroup measure maxWidth g) ∧
      CurOk measure maxWidth (wrapStep measure maxWidth (closed, cur) word).2 := by
  unfold wrapStep
  by_cases h1 : measure (joinSep ' ' (cur ++ [word])) ≤ maxWidth
  · simp only [if_pos h1]
    exact ⟨hc, Or.inr (Or.inl h1)⟩
  · simp only [if_neg h1]
    by_cases h2 : cur = []
    · simp only [if_pos h2]
      refine ⟨by simpa using hc, Or.inr (Or.inr ⟨word, rfl⟩)⟩
    · simp only [if_neg h2]
      refine ⟨?_, Or.inr (Or.inr ⟨word, rfl⟩)⟩
      intro g hg
      simp only [List.mem_append, List.mem_singleton] at hg
      rcases hg with hg | hg
      · exact hc g hg
      · subst hg
        rcases hcur with h | h | h
        · exact absurd h h2
        · exact ⟨h2, Or.inl h⟩
        · exact ⟨h2, Or.inr h⟩

/-- The wrap loop keeps both invariants along the whole word list. -/
theorem foldl_wrapStep_inv (measure : PyStr → ℤ) (maxWidth : ℤ) :
    ∀ (words : List PyStr) (acc : List (List PyStr) × List PyStr),
      (∀ g ∈ acc.1, GoodGroup measure maxWidth g) →
      CurOk measure maxWidth acc.2 →
      (∀ g ∈ (words.foldl (wrapStep measure maxWidth) acc).1,
          GoodGroup measure maxWidth g) ∧
        CurOk measure maxWidth (words.foldl (wrapStep measure maxWidth) acc).2
  | [], acc, hc, hcur => ⟨hc, hcur⟩
  | w :: ws, acc, hc, hcur => by
    rw [List.foldl_cons]
    have h := wrapStep_inv measure maxWidth acc.1 acc.2 w hc hcur
    exact foldl_wrapStep_inv measure maxWidth ws _ h.1 h.2

/-- Every word group produced by the wrap satisfies the line invariant. -/
theorem wrapGroups_good (measure : PyStr → ℤ) (maxWidth : ℤ)
    (words : List PyStr) :
    ∀ g ∈ wrapGroups measure maxWidth words, GoodGroup measure maxWidth g := by
  unfold wrapGroups
  have h := foldl_wrapStep_inv measure maxWidth words ([], [])
    (by simp) (Or.inl rfl)
  intro g hg
  simp only [List.mem_append] at hg
  rcases hg with hg | hg
  · exact h.1 g hg
  · by_cases h2 : (words.foldl (wrapStep measure maxWidth) ([], [])).2 = []
    · simp [h2] at hg
    · simp only [h2, if_neg, not_false_iff, List.mem_singleton] at hg
      subst hg
      rcases h.2 with hx | hx | hx
      · exact absurd hx h2
      · exact ⟨h2, Or.inl hx⟩
      · exact ⟨h2, Or.inr hx⟩

/-- C2: for every caption string and positive max width, each line produced
by the measured-width greedy wrap (`TextOverlay.wrap_text`) has measured
width at most the max width, except that a line consisting of a single
word whose own measured width exceeds the budget may exceed it; an
oversized word occupies a line by itself (never split mid-word, the line
is the word verbatim).  The width measure is abstract; the second part
assumes it is monotone (a word never measures wider than a space-joined
line containing it), as pixel-width metrics are. -/
theorem C2_wrap_width_bound (measure : PyStr → ℤ) (maxWidth : ℤ)
    (text : PyStr)
    (hmono : ∀ (g : List PyStr) (wd : PyStr), wd ∈ g →
      measure wd ≤ measure (joinSep ' ' g)) :
    (∀ line ∈ wrapLines measure maxWidth text,
        measure line ≤ maxWidth ∨
          (line ∈ splitWs text ∧ maxWidth < measure line)) ∧
      (∀ g ∈ wrapGroups measure maxWidth (splitWs text), ∀ wd ∈ g,
        maxWidth < measure wd → g = [wd]) := by
  constructor
  · intro line hline
    rcases List.mem_map.mp hline with ⟨g, hg, hjoin⟩
    have hgood := wrapGroups_good measure maxWidth (splitWs text) g hg
    by_cases hle : measure line ≤ maxWidth
    · exact Or.inl hle
    · refine Or.inr ⟨?_, lt_of_not_le hle⟩
      rcases hgood.2 with h | ⟨wd, hwd⟩
      · rw [← hjoin] at hle
        exact absurd h hle
      · subst hwd
        have : line = wd := by
          rw [← hjoin]
          rfl
        subst this
        have hmem : line ∈ (wrapGroups measure maxWidth (splitWs text)).flatten :=
          List.mem_flatten.mpr ⟨[line], hg, by simp⟩
        rwa [wrapGroups_flatten] at hmem
  · intro g hg wd hwd hover
    have hgood := wrapGroups_good measure maxWidth (splitWs text) g hg
    rcases hgood.2 with h | ⟨wd2, hwd2⟩
    · exact absurd (le_trans (hmono g wd hwd) h) (not_le.mpr hover)
    · subst hwd2
      simp only [List.mem_singleton] at hwd
      rw [hwd]

/-- Joining with single spaces never shortens a member word. -/
theorem lengthMeasure_mono :
    ∀ (g : List PyStr) (wd : PyStr), wd ∈ g →
      ((wd.length : ℤ)) ≤ (((joinSep ' ' g).length : ℤ))
  | [], wd, h => by simp at h
  | [p], wd, h => by
    simp only [List.mem_singleton] at h
    subst h
    simp [joinSep]
  | p :: q :: ps, wd, h => by
    rw [show joinSep ' ' (p :: q :: ps) = p ++ ' ' :: joinSep ' ' (q :: ps)
      from rfl]
    rcases List.mem_cons.mp h with h1 | h1
    · subst h1
      simp only [List.length_append, List.length_cons]
      omega
    · have := lengthMeasure_mono (q :: ps) wd h1
      simp only [List.length_append, List.length_cons]
      omega

/-- Witness for C2 at a concrete caption, width measured by character
count with budget 7. -/
theorem C2_wrap_width_bound_witness :
    (∀ line ∈ wrapLines (fun l => (l.length : ℤ)) 7 ("hi there world".data),
        (fun l => (l.length : ℤ)) line ≤ 7 ∨
          (line ∈ splitWs ("hi there world".data) ∧
            7 < (fun l => (l.length : ℤ)) line)) ∧
      (∀ g ∈ wrapGroups (fun l => (l.length : ℤ)) 7
          (splitWs ("hi there world".data)), ∀ wd ∈ g,
        7 < (fun l => (l.length : ℤ)) wd → g = [wd]) :=
  C2_wrap_width_bound (fun l => (l.length : ℤ)) 7 ("hi there world".data)
    (fun g wd h => lengthMeasure_mono g wd h)

/-- Flattening singleton lists recovers the list. -/
theorem flatten_map_singleton {α : Type} :
    ∀ l : List α, (l.map (fun x => [x])).flatten = l
  | [] => rfl
  | x :: l => by simp [flatten_map_singleton l]

/-- The first character of a space-join is the first character of the
first (non-empty) part. -/
theorem joinSep_head (sep : Char) :
    ∀ (p : PyStr) (ps : List PyStr), p ≠ [] →
      (joinSep sep (p :: ps)).head? = p.head?
  | p, [], _ => rfl
  | p, q :: ps, hp => by
    rw [show joinSep sep (p :: q :: ps) = p ++ sep :: joinSep sep (q :: ps)
      from rfl]
    rw [List.head?_append]
    match p with
    | [] => exact absurd rfl hp
    | c :: cs => simp

/-- The last character of a sep-join of non-empty parts is the last
character of one of the parts. -/
theorem joinSep_getLast (sep : Char) :
    ∀ (g : List PyStr), g ≠ [] → (∀ w ∈ g, w ≠ []) →
      ∃ w ∈ g, (joinSep sep g).getLast? = w.getLast?
  | [], h, _ => absurd rfl h
  | [p], _, _ => ⟨p, by simp, rfl⟩
  | p :: q :: ps, _, hw => by
    obtain ⟨w, hwmem, hwlast⟩ := joinSep_getLast sep (q :: ps) (by simp)
      (fun x hx => hw x (List.mem_cons_of_mem p hx))
    refine ⟨w, List.mem_cons_of_mem p hwmem, ?_⟩
    have hwne : w ≠ [] := hw w (List.mem_cons_of_mem p hwmem)
    have ha : w.getLast? = some (w.getLast hwne) :=
      List.getLast?_eq_getLast w hwne
    rw [show joinSep sep (p :: q :: ps) = p ++ sep :: joinSep sep (q :: ps)
      from rfl]
    rw [List.getLast?_append, List.getLast?_cons, hwlast, ha]
    simp

/-- C10: the measured-width greedy wrap preserves the word sequence —
splitting its output on whitespace yields exactly the whitespace-split
word sequence of the input — and every produced line is non-empty with no
leading or trailing whitespace. -/
theorem C10_wrap_word_sequence (measure : PyStr → ℤ) (maxWidth : ℤ)
    (text : PyStr) (hne : ∃ c ∈ text, ¬c.isWhitespace) :
    splitWs (wrapText measure maxWidth text) = splitWs text ∧
      ∀ line ∈ wrapLines measure maxWidth text,
        line ≠ [] ∧ (∀ c, line.head? = some c → ¬c.isWhitespace) ∧
          (∀ c, line.getLast? = some c → ¬c.isWhitespace) := by
  have hflat : (wrapGroups measure maxWidth (splitWs text)).flatten
      = splitWs text := wrapGroups_flatten measure maxWidth (splitWs text)
  have hword : ∀ g ∈ wrapGroups measure maxWidth (splitWs text), ∀ w ∈ g,
      w ≠ [] ∧ ∀ c ∈ w, ¬c.isWhitespace := by
    intro g hg w hwmem
    have : w ∈ (wrapGroups measure maxWidth (splitWs text)).flatten :=
      List.mem_flatten.mpr ⟨g, hg, hwmem⟩
    rw [hflat] at this
    exact splitWs_token text w this
  constructor
  · unfold wrapText wrapLines
    rw [splitWs_joinSep (by decide : ('\n').isWhitespace)]
    rw [List.map_map]
    have hg : ∀ g ∈ wrapGroups measure maxWidth (splitWs text),
        (splitWs ∘ joinSep ' ') g = id g := by
      intro g hgmem
      have hsingle : ∀ w ∈ g, splitWs w = [w] := by
        intro w hwmem
        have h := hword g hgmem w hwmem
        exact splitWs_single_token w h.1 h.2
      show splitWs (joinSep ' ' g) = g
      rw [splitWs_joinSep (by decide : (' ').isWhitespace)]
      rw [List.map_congr_left hsingle]
      exact flatten_map_singleton g
    rw [List.map_congr_left hg, List.map_id, hflat]
  · intro line hline
    obtain ⟨g, hgmem, hjoin⟩ := List.mem_map.mp hline
    have hgne : g ≠ [] :=
      (wrapGroups_good measure maxWidth (splitWs text) g hgmem).1
    match g, hgne with
    | p :: ps, _ =>
      have hpne : p ≠ [] := (hword _ hgmem p (by simp)).1
      have hhead : line.head? = p.head? := by
        rw [← hjoin]
        exact joinSep_head ' ' p ps hpne
      obtain ⟨w, hwmem, hwlast⟩ := joinSep_getLast ' ' (p :: ps) (by simp)
        (fun x hx => (hword _ hgmem x hx).1)
      have hlast : line.getLast? = w.getLast? := by
        rw [← hjoin]
        exact hwlast
      refine ⟨?_, ?_, ?_⟩
      · intro h0
        rw [h0] at hhead
        match p, hpne with
        | c :: cs, _ => simp at hhead
      · intro c hc
        rw [hhead] at hc
        exact (hword _ hgmem p (by simp)).2 c (List.mem_of_mem_head? hc)
      · intro c hc
        rw [hlast] at hc
        exact (hword _ hgmem w hwmem).2 c (List.mem_of_mem_getLast? hc)

/-- Witness for C10 at a concrete caption with character-count measure. -/
theorem C10_wrap_word_sequence_witness :
    (∃ c ∈ ("ab cd ef".data), ¬c.isWhitespace) ∧
      (splitWs (wrapText (fun l => (l.length : ℤ)) 5 ("ab cd ef".data))
          = splitWs ("ab cd ef".data) ∧
        ∀ line ∈ wrapLines (fun l => (l.length : ℤ)) 5 ("ab cd ef".data),
          line ≠ [] ∧ (∀ c, line.head? = some c → ¬c.isWhitespace) ∧
            (∀ c, line.getLast? = some c → ¬c.isWhitespace)) :=
  ⟨by decide,
    C10_wrap_word_sequence (fun l => (l.length : ℤ)) 5 ("ab cd ef".data)
      (by decide)⟩

/-- Kind of a text draw pass of `draw_text_with_outline`. -/
inductive DrawKind
  | outline
  | fill
deriving DecidableEq

/-- One `draw.text` call of `draw_text_with_outline`: the draw position
and the color kind used (outline or fill). -/
structure DrawCall where
  x : ℤ
  y : ℤ
  kind : DrawKind
deriving DecidableEq

/-- Model of Python `range(lo, hi + 1)` over the integers. -/
def rangeInts (lo hi : ℤ) : List ℤ :=
  (List.range (hi + 1 - lo).toNat).map (fun k : ℕ => lo + (k : ℤ))

/-- Characterization of membership in the integer range. -/
theorem mem_rangeInts (lo hi z : ℤ) :
    z ∈ rangeInts lo hi ↔ lo ≤ z ∧ z ≤ hi := by
  unfold rangeInts
  simp only [List.mem_map, List.mem_range]
  constructor
  · rintro ⟨k, hk, rfl⟩
    omega
  · intro h
    exact ⟨(z - lo).toNat, by omega, by omega⟩

/-- The integer range list has no duplicates. -/
theorem nodup_rangeInts (lo hi : ℤ) : (rangeInts lo hi).Nodup := by
  unfold rangeInts
  apply List.Nodup.map
  · intro a b h
    simp only at h
    omega
  · exact List.nodup_range _

/-- The integer range list has the expected length. -/
theorem length_rangeInts (lo hi : ℤ) :
    (rangeInts lo hi).length = (hi + 1 - lo).toNat := by
  unfold rangeInts
  simp

/-- In a duplicate-free list a member is counted exactly once. -/
theorem countP_eq_one_of_nodup_mem {α : Type} [DecidableEq α] :
    ∀ (l : List α) (a : α), l.Nodup → a ∈ l →
      l.countP (fun x => decide (x = a)) = 1
  | [], a, _, ha => absurd ha (List.not_mem_nil a)
  | b :: l, a, hnd, ha => by
    obtain ⟨hb, hl⟩ := List.nodup_cons.mp hnd
    by_cases hab : b = a
    · subst hab
      rw [List.countP_cons_of_pos _ _ (by simp)]
      have h0 : l.countP (fun x => decide (x = b)) = 0 :=
        List.countP_eq_zero.mpr (fun x hx => by
          simp only [decide_eq_true_eq]
          intro he
          exact hb (he ▸ hx))
      rw [h0]
    · have ha2 : a ∈ l := by
        rcases List.mem_cons.mp ha with h | h
        · exact absurd h.symm hab
        · exact h
      rw [List.countP_cons_of_neg _ _ (by simp [hab])]
      exact countP_eq_one_of_nodup_mem l a hl ha2

/-- Filtering one member out of a duplicate-free list drops its length by
exactly one. -/
theorem length_filter_ne_of_nodup_mem {α : Type} [DecidableEq α]
    (l : List α) (a : α) (hnd : l.Nodup) (ha : a ∈ l) :
    (l.filter (fun x => !decide (x = a))).length = l.length - 1 := by
  have h := List.length_eq_countP_add_countP (fun x => decide (x = a)) l
  have h1 := countP_eq_one_of_nodup_mem l a hnd ha
  have h2 : (l.filter (fun x => !decide (x = a))).length
      = l.countP (fun x => !decide (x = a)) :=
    (List.countP_eq_length_filter _ _).symm
  have h3 : l.countP (fun x => decide ¬(decide (x = a) = true))
      = l.countP (fun x => !decide (x = a)) :=
    List.countP_congr (fun x _ => by cases hd : decide (x = a) <;> simp [hd])
  rw [h2, ← h3]
  omega

/-- Model of `TextOverlay.draw_text_with_outline`
(src/text_overlay.py lines 136-148) and of the identical
`POVTextOverlay.draw_text_with_outline` (src/text_overlay_pov.py lines
146-158) as the sequence of `draw.text` calls performed: the nested loops
`for offset_x in range(-w, w+1): for offset_y in range(-w, w+1)`
enumerate the offset pairs in row-major order (the list product), the
`continue` when `offset_x == 0 and offset_y == 0` is the filter against
the origin pair, each remaining pair draws at the offset position in the
outline color, and one final fill-colored draw at the origin follows all
outline passes. -/
def drawTextWithOutline (x y : ℤ) (w : ℕ) : List DrawCall :=
  ((rangeInts (-(w : ℤ)) w ×ˢ rangeInts (-(w : ℤ)) w).filter
      (fun p => !decide (p = ((0 : ℤ), (0 : ℤ))))).map
    (fun p => ⟨x + p.1, y + p.2, DrawKind.outline⟩)
  ++ [⟨x, y, DrawKind.fill⟩]

/-- The outline offset list has (2w+1)^2 - 1 elements. -/
theorem length_outline_offsets (w : ℕ) :
    ((rangeInts (-(w : ℤ)) w ×ˢ rangeInts (-(w : ℤ)) w).filter
        (fun p => !decide (p = ((0 : ℤ), (0 : ℤ))))).length
      = (2 * w + 1) ^ 2 - 1 := by
  rw [length_filter_ne_of_nodup_mem _ _
    ((nodup_rangeInts _ _).product (nodup_rangeInts _ _))
    (by
      rw [List.mem_product, mem_rangeInts]
      omega)]
  rw [List.length_product, length_rangeInts]
  have h1 : ((w : ℤ) + 1 - -(w : ℤ)).toNat = 2 * w + 1 := by omega
  rw [h1]
  have h2 : (2 * w + 1) ^ 2 = (2 * w + 1) * (2 * w + 1) := by ring
  omega

/-- C4: for every origin and outline width w >= 1,
`draw_text_with_outline` draws the text in the outline color at
origin+(dx,dy) for exactly the integer pairs (dx,dy) with dx,dy in
[-w,w] excluding (0,0) — that is, (2w+1)^2 - 1 outline passes — and then
draws the text exactly once at the origin in the fill color, after all
outline passes, so the fill pass is never overdrawn by an outline pass. -/
theorem C4_outline_passes (x y : ℤ) (w : ℕ) (hw : 1 ≤ w) :
    ((drawTextWithOutline x y w).countP
        (fun e => decide (e.kind = DrawKind.outline)) = (2 * w + 1) ^ 2 - 1) ∧
      (∀ dx dy : ℤ,
        (⟨x + dx, y + dy, DrawKind.outline⟩ : DrawCall)
            ∈ drawTextWithOutline x y w ↔
          (-(w : ℤ) ≤ dx ∧ dx ≤ w ∧ -(w : ℤ) ≤ dy ∧ dy ≤ w ∧
            ¬(dx = 0 ∧ dy = 0))) ∧
      ((drawTextWithOutline x y w).getLast? = some ⟨x, y, DrawKind.fill⟩) ∧
      ((drawTextWithOutline x y w).countP
        (fun e => decide (e.kind = DrawKind.fill)) = 1) ∧
      (∀ e ∈ (drawTextWithOutline x y w).dropLast,
        e.kind = DrawKind.outline) := by
  refine ⟨?_, ?_, ?_, ?_, ?_⟩
  · unfold drawTextWithOutline
    rw [List.countP_append, List.countP_map]
    have hone : List.countP (fun e => decide (e.kind = DrawKind.outline))
        [(⟨x, y, DrawKind.fill⟩ : DrawCall)] = 0 := by simp
    rw [hone]
    have hconst : List.countP
        ((fun e => decide (e.kind = DrawKind.outline)) ∘
          (fun p : ℤ × ℤ => (⟨x + p.1, y + p.2, DrawKind.outline⟩ : DrawCall)))
        ((rangeInts (-(w : ℤ)) w ×ˢ rangeInts (-(w : ℤ)) w).filter
          (fun p => !decide (p = ((0 : ℤ), (0 : ℤ)))))
        = ((rangeInts (-(w : ℤ)) w ×ˢ rangeInts (-(w : ℤ)) w).filter
          (fun p => !decide (p = ((0 : ℤ), (0 : ℤ))))).length := by
      rw [List.countP_eq_length]
      intro a _
      simp
    rw [hconst, length_outline_offsets]
    omega
  · intro dx dy
    constructor
    · intro hmem
      rcases List.mem_append.mp hmem with h | h
      · obtain ⟨p, hp, he⟩ := List.mem_map.mp h
        obtain ⟨a, b⟩ := p
        obtain ⟨hpprod, hpne⟩ := List.mem_filter.mp hp
        simp only [List.mem_product, mem_rangeInts] at hpprod
        simp only [DrawCall.mk.injEq] at he
        simp only [Bool.not_eq_eq_eq_not, Bool.not_true, decide_eq_false_iff_not]
          at hpne
        have hx1 : a = dx := by omega
        have hy1 : b = dy := by omega
        refine ⟨by omega, by omega, by omega, by omega, ?_⟩
        intro hc
        apply hpne
        rw [hx1, hy1, hc.1, hc.2]
      · simp at h
    · rintro ⟨h1, h2, h3, h4, h5⟩
      apply List.mem_append.mpr
      left
      apply List.mem_map.mpr
      refine ⟨(dx, dy), List.mem_filter.mpr ⟨?_, ?_⟩, rfl⟩
      · simp only [List.mem_product, mem_rangeInts]
        exact ⟨⟨h1, h2⟩, h3, h4⟩
      · simpa using not_and_or.mp h5
  · unfold drawTextWithOutline
    rw [List.getLast?_append]
    rfl
  · unfold drawTextWithOutline
    rw [List.countP_append, List.countP_map]
    have hzero : List.countP
        ((fun e => decide (e.kind = DrawKind.fill)) ∘
          (fun p : ℤ × ℤ => (⟨x + p.1, y + p.2, DrawKind.outline⟩ : DrawCall)))
        ((rangeInts (-(w : ℤ)) w ×ˢ rangeInts (-(w : ℤ)) w).filter
          (fun p => !decide (p = ((0 : ℤ), (0 : ℤ))))) = 0 := by
      rw [List.countP_eq_zero]
      intro a _
      simp
    rw [hzero]
    simp
  · unfold drawTextWithOutline
    rw [List.dropLast_concat]
    intro e he
    obtain ⟨p, _, he2⟩ := List.mem_map.mp he
    rw [← he2]

/-- Witness for C4 at origin (5, 7) with the default outline width 2. -/
theorem C4_outline_passes_witness :
    1 ≤ 2 ∧
      (((drawTextWithOutline 5 7 2).countP
          (fun e => decide (e.kind = DrawKind.outline)) = (2 * 2 + 1) ^ 2 - 1) ∧
        (∀ dx dy : ℤ,
          (⟨5 + dx, 7 + dy, DrawKind.outline⟩ : DrawCall)
              ∈ drawTextWithOutline 5 7 2 ↔
            (-(2 : ℤ) ≤ dx ∧ dx ≤ 2 ∧ -(2 : ℤ) ≤ dy ∧ dy ≤ 2 ∧
              ¬(dx = 0 ∧ dy = 0))) ∧
        ((drawTextWithOutline 5 7 2).getLast? = some ⟨5, 7, DrawKind.fill⟩) ∧
        ((drawTextWithOutline 5 7 2).countP
          (fun e => decide (e.kind = DrawKind.fill)) = 1) ∧
        (∀ e ∈ (drawTextWithOutline 5 7 2).dropLast,
          e.kind = DrawKind.outline)) :=
  ⟨by decide, C4_outline_passes 5 7 2 (by decide)⟩

/-- The fixed fallback font list of `TextOverlay.__init__`
(src/text_overlay.py lines 23-28), in its declared order. -/
def systemFonts : List PyStr :=
  [("/usr/share/fonts/truetype/dejavu/DejaVuSans-Bold.ttf").data,
   ("/usr/share/fonts/truetype/liberation/LiberationSans-Bold.ttf").data,
   ("/usr/share/fonts/truetype/ubuntu/Ubuntu-Bold.ttf").data,
   ("/usr/share/fonts/truetype/freefont/FreeSansBold.ttf").data]

/-- Model of the font resolution of `TextOverlay.__init__`
(src/text_overlay.py lines 13-35).  `fsExists` models
`os.path.exists`; the condition `p ≠ []` models the Python truthiness
test `if font_path and ...` (an empty string is falsy); the fallback
`for ... break / else raise` is the first-match scan `List.find?`, whose
`none` outcome models the raised `FileNotFoundError`. -/
def resolveFont (fsExists : PyStr → Bool) (fontPath : Option PyStr) :
    Option PyStr :=
  match fontPath with
  | some p =>
    if p ≠ [] ∧ fsExists p = true then some p
    else List.find? fsExists systemFonts
  | none => List.find? fsExists systemFonts

/-- C5: if an explicit font path is given and exists, it is selected
unconditionally; otherwise the fallback list is scanned in declared order
and the first existing path is selected; construction raises (returns
`none`) if and only if no candidate path exists.  The hypothesis models
the operating-system fact that the empty path never exists. -/
theorem C5_font_resolution (fsExists : PyStr → Bool) (fontPath : Option PyStr)
    (hempty : fsExists [] = false) :
    (∀ p, fontPath = some p → fsExists p = true →
        resolveFont fsExists fontPath = some p) ∧
      (∀ f, resolveFont fsExists fontPath = some f →
        (∀ p, fontPath = some p → fsExists p = false) →
        fsExists f = true ∧ ∃ pre post, systemFonts = pre ++ f :: post ∧
          ∀ g ∈ pre, fsExists g = false) ∧
      (resolveFont fsExists fontPath = none ↔
        ((∀ p, fontPath = some p → fsExists p = false) ∧
          ∀ f ∈ systemFonts, fsExists f = false)) := by
  refine ⟨?_, ?_, ?_⟩
  · intro p hp hex
    subst hp
    have hpne : p ≠ [] := by
      intro hpe
      rw [hpe, hempty] at hex
      exact Bool.false_ne_true hex
    simp [resolveFont, hpne, hex]
  · intro f hf hno
    have hfind : List.find? fsExists systemFonts = some f := by
      cases fontPath with
      | none => exact hf
      | some p =>
        have hfp : fsExists p = false := hno p rfl
        simp only [resolveFont] at hf
        rwa [if_neg (by simp [hfp])] at hf
    obtain ⟨hpf, pre, post, heq, hall⟩ := List.find?_eq_some.mp hfind
    exact ⟨hpf, pre, post, heq, fun g hg => by
      have := hall g hg
      rwa [Bool.not_eq_true'] at this⟩
  · constructor
    · intro hnone
      cases fontPath with
      | none =>
        refine ⟨by intro p hp; exact absurd hp (by simp), ?_⟩
        intro f hfmem
        have := List.find?_eq_none.mp hnone f hfmem
        simpa using this
      | some p =>
        simp only [resolveFont] at hnone
        by_cases hcond : p ≠ [] ∧ fsExists p = true
        · rw [if_pos hcond] at hnone
          exact absurd hnone (by simp)
        · rw [if_neg hcond] at hnone
          constructor
          · intro q hq
            injection hq with hq2
            subst hq2
            by_cases hqe : p = []
            · rw [hqe]
              exact hempty
            · by_cases hqx : fsExists p = true
              · exact absurd ⟨hqe, hqx⟩ hcond
              · simpa using hqx
          · intro f hfmem
            have := List.find?_eq_none.mp hnone f hfmem
            simpa using this
    · rintro ⟨hexp, hfall⟩
      have hfind : List.find? fsExists systemFonts = none :=
        List.find?_eq_none.mpr (fun f hfmem => by simp [hfall f hfmem])
      cases fontPath with
      | none => exact hfind
      | some p =>
        simp only [resolveFont]
        rw [if_neg (by simp [hexp p rfl])]
        exact hfind

/-- Witness for C5: no explicit path, filesystem containing exactly the
third fallback font. -/
theorem C5_font_resolution_witness :
    ((fun q : PyStr =>
        q == ("/usr/share/fonts/truetype/ubuntu/Ubuntu-Bold.ttf").data) []
      = false) ∧
    ((∀ p, (none : Option PyStr) = some p →
        (fun q : PyStr =>
          q == ("/usr/share/fonts/truetype/ubuntu/Ubuntu-Bold.ttf").data) p
          = true →
        resolveFont (fun q : PyStr =>
          q == ("/usr/share/fonts/truetype/ubuntu/Ubuntu-Bold.ttf").data)
          none = some p) ∧
      (∀ f, resolveFont (fun q : PyStr =>
          q == ("/usr/share/fonts/truetype/ubuntu/Ubuntu-Bold.ttf").data)
          none = some f →
        (∀ p, (none : Option PyStr) = some p →
          (fun q : PyStr =>
            q == ("/usr/share/fonts/truetype/ubuntu/Ubuntu-Bold.ttf").data) p
            = false) →
        (fun q : PyStr =>
          q == ("/usr/share/fonts/truetype/ubuntu/Ubuntu-Bold.ttf").data) f
          = true ∧ ∃ pre post, systemFonts = pre ++ f :: post ∧
            ∀ g ∈ pre, (fun q : PyStr =>
              q == ("/usr/share/fonts/truetype/ubuntu/Ubuntu-Bold.ttf").data) g
              = false) ∧
      (resolveFont (fun q : PyStr =>
          q == ("/usr/share/fonts/truetype/ubuntu/Ubuntu-Bold.ttf").data)
          none = none ↔
        ((∀ p, (none : Option PyStr) = some p →
          (fun q : PyStr =>
            q == ("/usr/share/fonts/truetype/ubuntu/Ubuntu-Bold.ttf").data) p
            = false) ∧
          ∀ f ∈ systemFonts,
            (fun q : PyStr =>
              q == ("/usr/share/fonts/truetype/ubuntu/Ubuntu-Bold.ttf").data) f
              = false))) :=
  ⟨by decide,
    C5_font_resolution
      (fun q : PyStr =>
        q == ("/usr/share/fonts/truetype/ubuntu/Ubuntu-Bold.ttf").data)
      none (by decide)⟩

/-- Left/top pixel bound of vignette band i on an axis of n pixels: the
loop (src/text_overlay.py lines 54-63, identically
src/text_overlay_pov.py lines 71-79) draws band i from coordinate
`n/2 - n/2 * (1 - i/100)`, whose exact value is `n*i/200`; the raster
backend truncates the non-negative float coordinate, i.e. takes its
floor. -/
def bandLo (n i : ℕ) : ℕ := n * i / 200

/-- Right/bottom pixel bound of vignette band i on an axis of n pixels:
the loop draws band i up to coordinate `n/2 + n/2 * (1 - i/100)`, whose
exact value is `n - n*i/200`; its floor is `n` minus the ceiling of
`n*i/200`. -/
def bandHi (n i : ℕ) : ℕ := n - (n * i + 199) / 200

/-- Pixel (x, y) lies inside the rectangle drawn at iteration i of the
100-band vignette loop (rectangles are filled inclusively of both
corners). -/
def inBand (wdt hgt i x y : ℕ) : Prop :=
  bandLo wdt i ≤ x ∧ x ≤ bandHi wdt i ∧ bandLo hgt i ≤ y ∧ y ≤ bandHi hgt i

instance (wdt hgt i x y : ℕ) : Decidable (inBand wdt hgt i x y) := by
  unfold inBand
  infer_instance

/-- Final alpha of the overlay pixel (x, y) after the 100-band loop.
Each `draw.rectangle(..., fill=(0, 0, 0, alpha))` on the fresh RGBA
overlay REPLACES the pixels of its rectangle (ImageDraw on an RGBA image
overwrites, it does not blend), so after the loop a pixel holds alpha
`100 - i` for the last band i that covers it, and 0 if no band does. -/
def vignetteAlpha (wdt hgt x y : ℕ) : ℕ :=
  (List.range 100).foldl
    (fun a i => if inBand wdt hgt i x y then 100 - i else a) 0

/-- Channel value after `Image.alpha_composite` of the black overlay with
alpha a over a fully opaque background channel c: standard alpha-over
blending gives `c * (255 - a) / 255`. -/
def compositeChannel (c a : ℕ) : ℚ := c * (255 - a) / 255

/-- Luminance reduction (darkening) of a uniform background channel c
under overlay alpha a. -/
def darkening (c a : ℕ) : ℚ := c - compositeChannel c a

/-- C1 fails on the code: on a 200x200 uniform background the center
pixel (100, 100) is covered by every band, so the band-99 draw leaves it
with alpha 1, while the corner pixel (0, 0) is covered only by band 0 and
keeps alpha 100.  The darkening of the uniform channel 128 is therefore
strictly SMALLER at the center than at the corner: the cumulative 100-band
vignette darkens monotonically toward the edges, not toward the center,
contradicting the claimed non-increasing darkening with distance from the
center (and the source comment announcing a center shadow). -/
theorem C1_vignette_divergence :
    vignetteAlpha 200 200 100 100 = 1 ∧ vignetteAlpha 200 200 0 0 = 100 ∧
      darkening 128 (vignetteAlpha 200 200 100 100)
        < darkening 128 (vignetteAlpha 200 200 0 0) := by
  have h1 : vignetteAlpha 200 200 100 100 = 1 := by decide
  have h2 : vignetteAlpha 200 200 0 0 = 100 := by decide
  refine ⟨h1, h2, ?_⟩
  rw [h1, h2]
  norm_num [darkening, compositeChannel]

/-- A text bounding box as returned by `draw.textbbox((0, 0), text,
font=font)`: left, top, right, bottom pixel coordinates. -/
structure BBox where
  x0 : ℤ
  y0 : ℤ
  x1 : ℤ
  y1 : ℤ
deriving DecidableEq

/-- Width `bbox[2] - bbox[0]` of a text bounding box. -/
def bboxWidth (b : BBox) : ℤ := b.x1 - b.x0

/-- Height `bbox[3] - bbox[1]` of a text bounding box. -/
def bboxHeight (b : BBox) : ℤ := b.y1 - b.y0

/-- Abstract font metric: for each pixel size, the bounding box
`textbbox((0, 0), text)` of a rendered (possibly multi-line) text block.
The glyph geometry of the loaded font file is opaque to the layout code,
which only reads bounding boxes. -/
structure FontMetric where
  bbox : ℕ → PyStr → BBox

/-- The single-line width measure used by `TextOverlay.wrap_text`: the
width of `textbbox((0, 0), test_line)` (src/text_overlay.py lines
118-119). -/
def lineWidth (fm : FontMetric) (size : ℕ) (line : PyStr) : ℤ :=
  bboxWidth (fm.bbox size line)

/-- A decoded background raster image (only its dimensions drive layout). -/
structure BgImage where
  width : ℕ
  height : ℕ
deriving DecidableEq

/-- The composite produced by the success path of
`TextOverlay.add_text_to_image`: the layout quantities the code computes
before drawing and saving. -/
structure Composite where
  width : ℕ
  height : ℕ
  fontSize : ℕ
  wrapped : PyStr
  textX : ℤ
  textY : ℤ
deriving DecidableEq

/-- The layout computed by `TextOverlay.add_text_to_image`
(src/text_overlay.py lines 71-89) on an opened image: font size
`int(width / 15)`; wrap at `max_width = width - 2 * margin` with
`margin = 20`; block position `((width - text_width) // 2,
(height - text_height) // 2)` from the wrapped block's `textbbox`
width and height.  `/` on ℤ here is Euclidean division, which for the
positive divisor 2 is the floor division `//` of Python. -/
def singleComposite (fm : FontMetric) (img : BgImage) (text : PyStr) :
    Composite :=
  let fontSize := img.width / 15
  let maxWidth : ℤ := (img.width : ℤ) - 2 * 20
  let wrapped := wrapText (lineWidth fm fontSize) maxWidth text
  let bb := fm.bbox fontSize wrapped
  { width := img.width, height := img.height, fontSize := fontSize,
    wrapped := wrapped,
    textX := ((img.width : ℤ) - bboxWidth bb) / 2,
    textY := ((img.height : ℤ) - bboxHeight bb) / 2 }

/-- Model of `TextOverlay.add_text_to_image` (src/text_overlay.py lines
37-107).  The whole body runs in one `try`: a background that cannot be
opened (`bg = none`) raises, the `except` block prints the message and
returns `None` with no save performed; otherwise every stage is total,
the composite is saved (`img_with_text.save`, the unique sink call) and
returned (the returned filename stands for its composite).  The first
component is the return value, the second the list of sink calls. -/
def addTextToImage (fm : FontMetric) (bg : Option BgImage) (text : PyStr) :
    Option Composite × List Composite :=
  match bg with
  | none => (none, [])
  | some img =>
    let c := singleComposite fm img text
    (some c, [c])

/-- The measured bounding box of a composite's wrapped block. -/
def measuredBBox (fm : FontMetric) (c : Composite) : BBox :=
  fm.bbox c.fontSize c.wrapped

/-- The bounding box the drawn block occupies: the text is drawn at
`(textX, textY)`, so its box is the measured box translated by the draw
origin. -/
def drawnBBox (fm : FontMetric) (c : Composite) : BBox :=
  { x0 := c.textX + (measuredBBox fm c).x0,
    y0 := c.textY + (measuredBBox fm c).y0,
    x1 := c.textX + (measuredBBox fm c).x1,
    y1 := c.textY + (measuredBBox fm c).y1 }

/-- Centering arithmetic: placing a block of extent e at `(n - e) // 2`
puts its doubled midpoint within one pixel of n. -/
theorem center_abs (n e : ℤ) : |2 * ((n - e) / 2) + e - n| ≤ 1 := by
  rw [abs_le]
  constructor <;> omega

/-- C6: in single-block mode, for every image and caption the font pixel
size used is `int(width / 15)`, and the drawn block's bounding box is
centered: its doubled horizontal midpoint is within one pixel of the
image width and its doubled vertical midpoint within one pixel of the
image height (midpoints within half a pixel of the image center).  The
two bbox hypotheses state that the metric anchors the measured block at
the queried origin, as `textbbox((0, 0), ...)` does for the default
top-left anchor. -/
theorem C6_single_block_centering (fm : FontMetric) (wdt hgt : ℕ)
    (text : PyStr) (htext : text ≠ [])
    (hx0 : (measuredBBox fm (singleComposite fm ⟨wdt, hgt⟩ text)).x0 = 0)
    (hy0 : (measuredBBox fm (singleComposite fm ⟨wdt, hgt⟩ text)).y0 = 0) :
    (singleComposite fm ⟨wdt, hgt⟩ text).fontSize = wdt / 15 ∧
      |(drawnBBox fm (singleComposite fm ⟨wdt, hgt⟩ text)).x0 +
          (drawnBBox fm (singleComposite fm ⟨wdt, hgt⟩ text)).x1 -
          (wdt : ℤ)| ≤ 1 ∧
      |(drawnBBox fm (singleComposite fm ⟨wdt, hgt⟩ text)).y0 +
          (drawnBBox fm (singleComposite fm ⟨wdt, hgt⟩ text)).y1 -
          (hgt : ℤ)| ≤ 1 := by
  have htx : (singleComposite fm ⟨wdt, hgt⟩ text).textX
      = ((wdt : ℤ) -
        bboxWidth (measuredBBox fm (singleComposite fm ⟨wdt, hgt⟩ text))) / 2 :=
    rfl
  have hty : (singleComposite fm ⟨wdt, hgt⟩ text).textY
      = ((hgt : ℤ) -
        bboxHeight (measuredBBox fm (singleComposite fm ⟨wdt, hgt⟩ text))) / 2 :=
    rfl
  refine ⟨rfl, ?_, ?_⟩
  · dsimp only [drawnBBox]
    rw [htx, bboxWidth, hx0, abs_le]
    constructor <;> omega
  · dsimp only [drawnBBox]
    rw [hty, bboxHeight, hy0, abs_le]
    constructor <;> omega

/-- A concrete monospace-like font metric for witnesses: each character
advances `size` pixels, a block is `size` pixels tall, and boxes are
anchored at the origin. -/
def constFM : FontMetric :=
  ⟨fun size t => ⟨0, 0, (t.length : ℤ) * (size : ℤ), (size : ℤ)⟩⟩

/-- Witness for C6 on a 300x300 image with caption "hello". -/
theorem C6_single_block_centering_witness :
    ("hello".data ≠ []) ∧
      ((singleComposite constFM ⟨300, 300⟩ ("hello".data)).fontSize
          = 300 / 15 ∧
        |(drawnBBox constFM (singleComposite constFM ⟨300, 300⟩
            ("hello".data))).x0 +
          (drawnBBox constFM (singleComposite constFM ⟨300, 300⟩
            ("hello".data))).x1 - (300 : ℤ)| ≤ 1 ∧
        |(drawnBBox constFM (singleComposite constFM ⟨300, 300⟩
            ("hello".data))).y0 +
          (drawnBBox constFM (singleComposite constFM ⟨300, 300⟩
            ("hello".data))).y1 - (300 : ℤ)| ≤ 1) :=
  ⟨by decide, C6_single_block_centering constFM 300 300 ("hello".data)
    (by decide) rfl rfl⟩

/-- A fully whitespace string splits to no tokens. -/
theorem splitWs_all_ws :
    ∀ l : List Char, (∀ c ∈ l, c.isWhitespace) → splitWs l = []
  | [], _ => by simp [splitWs]
  | c :: cs, h => by
    rw [splitWs_cons_ws cs (h c (by simp))]
    exact splitWs_all_ws cs (fun x hx => h x (by simp [hx]))

/-- Wrapping a fully whitespace caption yields the empty string, as
`'\n'.join` of no lines. -/
theorem wrapText_all_ws (measure : PyStr → ℤ) (maxWidth : ℤ) (text : PyStr)
    (h : ∀ c ∈ text, c.isWhitespace) :
    wrapText measure maxWidth text = [] := by
  unfold wrapText wrapLines
  rw [splitWs_all_ws text h]
  rfl

/-- C3 fails on the code: a whitespace-only caption on a valid 300x300
background is not rejected — `add_text_to_image` has no empty-caption
check, returns a (non-error) filename and performs the sink call. -/
theorem C3_counterexample :
    (addTextToImage constFM (some ⟨300, 300⟩) ("   ".data)).1.isSome = true ∧
      (addTextToImage constFM (some ⟨300, 300⟩) ("   ".data)).2 ≠ [] := by
  constructor
  · rfl
  · simp [addTextToImage]

/-- C3 amended: the composer performs no empty-caption check — for every
metric and decoded background, an empty or whitespace-only caption is
accepted, the wrapped text is empty, the render succeeds and the sink
call is performed. -/
theorem C3_no_empty_caption_check (fm : FontMetric) (img : BgImage)
    (text : PyStr) (hws : ∀ c ∈ text, c.isWhitespace) :
    addTextToImage fm (some img) text
      = (some (singleComposite fm img text), [singleComposite fm img text]) ∧
      (singleComposite fm img text).wrapped = [] := by
  refine ⟨rfl, ?_⟩
  show wrapText _ _ text = []
  exact wrapText_all_ws _ _ text hws

/-- Witness for C3 (amended) with a two-space caption. -/
theorem C3_no_empty_caption_check_witness :
    (∀ c ∈ ("  ".data), c.isWhitespace) ∧
      (addTextToImage constFM (some ⟨300, 300⟩) ("  ".data)
          = (some (singleComposite constFM ⟨300, 300⟩ ("  ".data)),
            [singleComposite constFM ⟨300, 300⟩ ("  ".data)]) ∧
        (singleComposite constFM ⟨300, 300⟩ ("  ".data)).wrapped = []) :=
  ⟨by decide,
    C3_no_empty_caption_check constFM ⟨300, 300⟩ ("  ".data) (by decide)⟩

/-- Model of Python `textwrap.wrap(text, width)` in the regime this
repository exercises: whitespace-split words no longer than `width` and
without hyphens.  The default TextWrapper then greedily packs whole
words joined by single spaces while the line stays within `width`
characters — the same greedy loop as `wrapGroups` with the
character-count measure (its long-word breaking and hyphen splitting are
never triggered in this regime). -/
def textwrapWrap (width : ℕ) (text : PyStr) : List PyStr :=
  (wrapGroups (fun l => (l.length : ℤ)) (width : ℤ) (splitWs text)).map
    (joinSep ' ')

/-- Model of `POVTextOverlay.wrap_text` (src/text_overlay_pov.py lines
141-144): `textwrap.wrap(text, width=int(max_width / (font.size * 0.5)))`
joined with newlines.  A zero font size raises `ZeroDivisionError` in
Python and a non-positive computed width makes `textwrap` raise
`ValueError`; both propagate to the caller and are modelled by `none`.
`int(...)` truncation agrees with Euclidean division here: for a positive
quotient both are the floor, and a non-positive quotient is rejected
either way. -/
def povWrapText (fontSize : ℕ) (maxWidth : ℤ) (text : PyStr) :
    Option PyStr :=
  if fontSize = 0 then none
  else if 2 * maxWidth / (fontSize : ℤ) ≤ 0 then none
  else some (joinSep '\n'
    (textwrapWrap (2 * maxWidth / (fontSize : ℤ)).toNat text))

/-- The composite produced by the success path of
`POVTextOverlay.add_pov_text_to_image`: the layout quantities the code
computes before drawing and saving. -/
structure PovComposite where
  width : ℕ
  height : ℕ
  povSize : ℕ
  quoteSize : ℕ
  wrappedQuote : PyStr
  povX : ℤ
  povY : ℤ
  quoteX : ℤ
  quoteY : ℤ
deriving DecidableEq

/-- Model of `POVTextOverlay.add_pov_text_to_image`
(src/text_overlay_pov.py lines 54-139).  The whole body runs in one
`try`: an unopenable background (`bg = none`) or a failing
`wrap_text` raises, the `except` block prints the message and returns
`None` with no save; otherwise the label "POV" is laid out at font size
`int(width / 12)`, `y = int(height * 0.35)`, horizontally centered; the
wrapped quote at font size `int(width / 18)` is placed below it with a
gap of `int(height * 0.05)` and horizontally centered from its own
bounding box; the composite (`povComposite` below) is saved (the unique
sink call) and returned. -/
def povComposite (fm : FontMetric) (img : BgImage) (wrappedQuote : PyStr) :
    PovComposite :=
  let povSize := img.width / 12
  let quoteSize := img.width / 18
  let povBB := fm.bbox povSize ("POV".data)
  let quoteBB := fm.bbox quoteSize wrappedQuote
  let povY : ℤ := ((35 * img.height / 100 : ℕ) : ℤ)
  { width := img.width, height := img.height,
    povSize := povSize, quoteSize := quoteSize,
    wrappedQuote := wrappedQuote,
    povX := ((img.width : ℤ) - bboxWidth povBB) / 2,
    povY := povY,
    quoteX := ((img.width : ℤ) - bboxWidth quoteBB) / 2,
    quoteY := povY + bboxHeight povBB + ((5 * img.height / 100 : ℕ) : ℤ) }

def addPovTextToImage (fm : FontMetric) (bg : Option BgImage)
    (text : PyStr) : Option PovComposite × List PovComposite :=
  match bg with
  | none => (none, [])
  | some img =>
    match povWrapText (img.width / 18) ((img.width : ℤ) - 2 * 40) text with
    | none => (none, [])
    | some wrappedQuote =>
      (some (povComposite fm img wrappedQuote),
        [povComposite fm img wrappedQuote])

/-- C7: in two-block mode, whenever the quote wrap succeeds, the label
block uses font pixel size `int(width / 12)` and sits at
`y = int(height * 0.35)` with its bounding box horizontally centered (its
doubled drawn midpoint within one pixel of the width); the caption block
uses font pixel size `int(width / 18)`, sits directly below the label
with a gap of `int(height * 0.05)` (caption y = label y + label height +
gap), and is horizontally centered from its own bounding-box width.  The
render then succeeds with exactly this composite.  The two bbox
hypotheses state the metric anchors the measured blocks at the queried
origin. -/
theorem C7_two_block_layout (fm : FontMetric) (wdt hgt : ℕ)
    (text wq : PyStr)
    (hwq : povWrapText (wdt / 18) ((wdt : ℤ) - 2 * 40) text = some wq)
    (hpx0 : (fm.bbox (wdt / 12) ("POV".data)).x0 = 0)
    (hqx0 : (fm.bbox (wdt / 18) wq).x0 = 0) :
    addPovTextToImage fm (some ⟨wdt, hgt⟩) text
        = (some (povComposite fm ⟨wdt, hgt⟩ wq),
          [povComposite fm ⟨wdt, hgt⟩ wq]) ∧
      (povComposite fm ⟨wdt, hgt⟩ wq).povSize = wdt / 12 ∧
      (povComposite fm ⟨wdt, hgt⟩ wq).quoteSize = wdt / 18 ∧
      (povComposite fm ⟨wdt, hgt⟩ wq).wrappedQuote = wq ∧
      (povComposite fm ⟨wdt, hgt⟩ wq).povY = ((35 * hgt / 100 : ℕ) : ℤ) ∧
      (povComposite fm ⟨wdt, hgt⟩ wq).quoteY
        = (povComposite fm ⟨wdt, hgt⟩ wq).povY
          + bboxHeight (fm.bbox (wdt / 12) ("POV".data))
          + ((5 * hgt / 100 : ℕ) : ℤ) ∧
      |2 * (povComposite fm ⟨wdt, hgt⟩ wq).povX
          + (fm.bbox (wdt / 12) ("POV".data)).x0
          + (fm.bbox (wdt / 12) ("POV".data)).x1 - (wdt : ℤ)| ≤ 1 ∧
      (povComposite fm ⟨wdt, hgt⟩ wq).quoteX
        = ((wdt : ℤ) - bboxWidth (fm.bbox (wdt / 18) wq)) / 2 ∧
      |2 * (povComposite fm ⟨wdt, hgt⟩ wq).quoteX
          + (fm.bbox (wdt / 18) wq).x0
          + (fm.bbox (wdt / 18) wq).x1 - (wdt : ℤ)| ≤ 1 := by
  refine ⟨?_, rfl, rfl, rfl, rfl, rfl, ?_, rfl, ?_⟩
  · simp only [addPovTextToImage]
    rw [hwq]
  · have hpx : (povComposite fm ⟨wdt, hgt⟩ wq).povX
        = ((wdt : ℤ) - bboxWidth (fm.bbox (wdt / 12) ("POV".data))) / 2 := rfl
    rw [hpx, bboxWidth, hpx0, abs_le]
    constructor <;> omega
  · have hqx : (povComposite fm ⟨wdt, hgt⟩ wq).quoteX
        = ((wdt : ℤ) - bboxWidth (fm.bbox (wdt / 18) wq)) / 2 := rfl
    rw [hqx, bboxWidth, hqx0, abs_le]
    constructor <;> omega

/-- Witness for C7 on a 1080x1920 image with caption "hello world". -/
theorem C7_two_block_layout_witness :
    (povWrapText (1080 / 18) ((1080 : ℤ) - 2 * 40) ("hello world".data)
        = some ("hello world".data)) ∧
      (addPovTextToImage constFM (some ⟨1080, 1920⟩) ("hello world".data)
          = (some (povComposite constFM ⟨1080, 1920⟩ ("hello world".data)),
            [povComposite constFM ⟨1080, 1920⟩ ("hello world".data)]) ∧
        (povComposite constFM ⟨1080, 1920⟩ ("hello world".data)).povSize
          = 1080 / 12 ∧
        (povComposite constFM ⟨1080, 1920⟩ ("hello world".data)).quoteSize
          = 1080 / 18 ∧
        (povComposite constFM ⟨1080, 1920⟩ ("hello world".data)).wrappedQuote
          = ("hello world".data) ∧
        (povComposite constFM ⟨1080, 1920⟩ ("hello world".data)).povY
          = ((35 * 1920 / 100 : ℕ) : ℤ) ∧
        (povComposite constFM ⟨1080, 1920⟩ ("hello world".data)).quoteY
          = (povComposite constFM ⟨1080, 1920⟩ ("hello world".data)).povY
            + bboxHeight (constFM.bbox (1080 / 12) ("POV".data))
            + ((5 * 1920 / 100 : ℕ) : ℤ) ∧
        |2 * (povComposite constFM ⟨1080, 1920⟩ ("hello world".data)).povX
            + (constFM.bbox (1080 / 12) ("POV".data)).x0
            + (constFM.bbox (1080 / 12) ("POV".data)).x1 - (1080 : ℤ)| ≤ 1 ∧
        (povComposite constFM ⟨1080, 1920⟩ ("hello world".data)).quoteX
          = ((1080 : ℤ)
            - bboxWidth (constFM.bbox (1080 / 18) ("hello world".data))) / 2 ∧
        |2 * (povComposite constFM ⟨1080, 1920⟩ ("hello world".data)).quoteX
            + (constFM.bbox (1080 / 18) ("hello world".data)).x0
            + (constFM.bbox (1080 / 18) ("hello world".data)).x1
            - (1080 : ℤ)| ≤ 1) := by
  have hs : splitWs ("hello world".data) = ["hello".data, "world".data] := by
    simp [splitWs, String.data]
  have hwq : povWrapText (1080 / 18) ((1080 : ℤ) - 2 * 40)
      ("hello world".data) = some ("hello world".data) := by
    simp [povWrapText, textwrapWrap, wrapGroups, hs, wrapStep, joinSep,
      String.data]
  exact ⟨hwq, C7_two_block_layout constFM 1080 1920 ("hello world".data)
    ("hello world".data) hwq rfl rfl⟩

/-- C8: the approximate character-count wrap uses a per-line character
budget equal to `floor(max_width / (font_size * 0.5))`; with that budget
the output is exactly the newline-join of the character-count wrap of the
text (the decomposition is a pure function of text, size and width with
the fixed constant 0.5, hence reproducible); and when every word fits the
budget, every produced line fits the budget. -/
theorem C8_char_count_wrap (fontSize : ℕ) (maxWidth : ℤ) (text : PyStr)
    (hS : 0 < fontSize) (hB : 0 < 2 * maxWidth / (fontSize : ℤ)) :
    2 * maxWidth / (fontSize : ℤ)
        = ⌊(maxWidth : ℚ) / ((fontSize : ℚ) * (1 / 2))⌋ ∧
      povWrapText fontSize maxWidth text
        = some (joinSep '\n'
            (textwrapWrap (2 * maxWidth / (fontSize : ℤ)).toNat text)) ∧
      ((∀ wd ∈ splitWs text,
          (wd.length : ℤ) ≤ 2 * maxWidth / (fontSize : ℤ)) →
        ∀ line ∈ textwrapWrap (2 * maxWidth / (fontSize : ℤ)).toNat text,
          (line.length : ℤ) ≤ 2 * maxWidth / (fontSize : ℤ)) := by
  have hBnat : (((2 * maxWidth / (fontSize : ℤ)).toNat : ℤ))
      = 2 * maxWidth / (fontSize : ℤ) := Int.toNat_of_nonneg hB.le
  refine ⟨?_, ?_, ?_⟩
  · have h2 : (maxWidth : ℚ) / ((fontSize : ℚ) * (1 / 2))
        = ((2 * maxWidth : ℤ) : ℚ) / ((fontSize : ℕ) : ℚ) := by
      have hs0 : ((fontSize : ℚ)) ≠ 0 := by
        simp [Nat.pos_iff_ne_zero.mp hS]
      push_cast
      field_simp
      ring
    rw [h2, Rat.floor_intCast_div_natCast]
  · unfold povWrapText
    rw [if_neg (Nat.pos_iff_ne_zero.mp hS), if_neg (not_le.mpr hB)]
  · intro hwords line hline
    obtain ⟨g, hg, hjoin⟩ := List.mem_map.mp hline
    have hgood := wrapGroups_good (fun l => (l.length : ℤ))
      (((2 * maxWidth / (fontSize : ℤ)).toNat : ℤ)) (splitWs text) g hg
    rcases hgood.2 with h | ⟨wd, hwd⟩
    · rw [← hjoin]
      exact hBnat ▸ h
    · subst hwd
      have hline2 : line = wd := by
        rw [← hjoin]
        rfl
      subst hline2
      have hmem : line ∈ (wrapGroups (fun l => (l.length : ℤ))
          (((2 * maxWidth / (fontSize : ℤ)).toNat : ℤ))
          (splitWs text)).flatten :=
        List.mem_flatten.mpr ⟨[line], hg, by simp⟩
      rw [wrapGroups_flatten] at hmem
      exact hwords line hmem

/-- Witness for C8 at font size 60, max width 1000 (budget 33). -/
theorem C8_char_count_wrap_witness :
    (0 < 60) ∧ (0 < 2 * (1000 : ℤ) / ((60 : ℕ) : ℤ)) ∧
      (2 * (1000 : ℤ) / ((60 : ℕ) : ℤ)
          = ⌊((1000 : ℤ) : ℚ) / (((60 : ℕ) : ℚ) * (1 / 2))⌋ ∧
        povWrapText 60 1000 ("ab cd".data)
          = some (joinSep '\n'
              (textwrapWrap (2 * (1000 : ℤ) / ((60 : ℕ) : ℤ)).toNat
                ("ab cd".data))) ∧
        ((∀ wd ∈ splitWs ("ab cd".data),
            (wd.length : ℤ) ≤ 2 * (1000 : ℤ) / ((60 : ℕ) : ℤ)) →
          ∀ line ∈ textwrapWrap
              (2 * (1000 : ℤ) / ((60 : ℕ) : ℤ)).toNat ("ab cd".data),
            (line.length : ℤ) ≤ 2 * (1000 : ℤ) / ((60 : ℕ) : ℤ))) :=
  ⟨by decide, by decide,
    C8_char_count_wrap 60 1000 ("ab cd".data) (by decide) (by decide)⟩

/-- C9 fails as stated on the code: a render whose background cannot be
opened returns the bare `None` sentinel — carrying no error kind — rather
than a typed error; no sink call is made. -/
theorem C9_counterexample :
    addTextToImage constFM none ("hello".data) = (none, []) ∧
      addPovTextToImage constFM none ("hello".data) = (none, []) :=
  ⟨rfl, rfl⟩

/-- C9 amended: in both composers the sink receives exactly the final
image of a successful render — never a partially composited buffer and
nothing on failure — but a failed call returns `None` (the exception is
caught and printed, its type discarded), not a typed error. -/
theorem C9_sink_only_on_success (fm : FontMetric) (bg : Option BgImage)
    (text : PyStr) :
    (addTextToImage fm bg text).2 = (addTextToImage fm bg text).1.toList ∧
      (addPovTextToImage fm bg text).2
        = (addPovTextToImage fm bg text).1.toList := by
  constructor
  · cases bg with
    | none => rfl
    | some img => rfl
  · cases bg with
    | none => rfl
    | some img =>
      simp only [addPovTextToImage]
      cases hwq : povWrapText (img.width / 18) ((img.width : ℤ) - 2 * 40)
          text with
      | none => rfl
      | some wq => rfl
